import Mathlib

/-!
Verification of the core of the travel-through-time parking-occupancy
visualizer: the statistics module (src/lib/statistics.js), the time
filtering/bucketing module (src/lib/time-utils.js), and the map/chart
aggregation pipeline (main module: runDataPipeline, processAOISeries,
processBlockfaceSeries, calculateNeighborhoodOccupancy,
calculateBlockfaceOccupancy).

Modelling conventions:
- JavaScript numbers are modelled as rationals (ℚ); floating-point rounding
  is not modelled.
- A JavaScript Date is modelled as an integer count of minutes since the
  Unix epoch (the code never inspects seconds or milliseconds except for
  the 23:59:59.999 end-of-day bound, which at minute resolution is minute
  1439 of the end day).  Calendar getters (getFullYear, getMonth, getDate,
  getDay, getHours, getMinutes) are derived from the minute count with the
  standard proleptic-Gregorian civil-from-day-number algorithm, and
  setDate/setMonth with the day-number-from-civil algorithm, which is the
  ECMAScript MakeDay computation.  All dates are interpreted in a single
  fixed timezone (the spec recommends treating everything as UTC).
- Fallible code returns Except; the only throwing function in scope is
  percentile.
-/

set_option maxHeartbeats 4000000

namespace TTV

/-- A civil (proleptic Gregorian) calendar date: year, month (1..12),
day of month (1..31). -/
structure CivilDate where
  year : Int
  month : Int
  day : Int
deriving DecidableEq, Repr

/-- Day number (days since 1970-01-01) of a civil date; the ECMAScript
MakeDay computation (Hinnant's days-from-civil algorithm).  The formula is
affine in `day`, so out-of-range day-of-month values normalize by day
arithmetic exactly as in JavaScript. -/
def daysFromCivil (c : CivilDate) : Int :=
  let y : Int := if c.month ≤ 2 then c.year - 1 else c.year
  let era : Int := y / 400
  let yoe : Int := y - era * 400
  let mp : Int := (c.month + 9) % 12
  let doy : Int := (153 * mp + 2) / 5 + c.day - 1
  let doe : Int := yoe * 365 + yoe / 4 - yoe / 100 + doy
  era * 146097 + doe - 719468

/-- Civil date of a day number (days since 1970-01-01); Hinnant's
civil-from-days algorithm, which is how a JavaScript Date derives its
calendar fields from its timestamp. -/
def civilFromDayNumber (z0 : Int) : CivilDate :=
  let z : Int := z0 + 719468
  let era : Int := z / 146097
  let doe : Int := z % 146097
  let yoe : Int := (doe - doe / 1460 + doe / 36524 - doe / 146096) / 365
  let y : Int := yoe + era * 400
  let doy : Int := doe - (365 * yoe + yoe / 4 - yoe / 100)
  let mp : Int := (5 * doy + 2) / 153
  let d : Int := doy - (153 * mp + 2) / 5 + 1
  let m : Int := if mp < 10 then mp + 3 else mp - 9
  ⟨if m ≤ 2 then y + 1 else y, m, d⟩

theorem daysFromCivil_mk_aux (era yoe doy mp : Int)
    (hy0 : 0 ≤ yoe) (hy1 : yoe ≤ 399) (hm0 : 0 ≤ mp) (hm1 : mp ≤ 11) :
    daysFromCivil
        ⟨if (if mp < 10 then mp + 3 else mp - 9) ≤ 2 then yoe + era * 400 + 1 else yoe + era * 400,
          if mp < 10 then mp + 3 else mp - 9,
          doy - (153 * mp + 2) / 5 + 1⟩ =
      era * 146097 + (yoe * 365 + yoe / 4 - yoe / 100 + doy) - 719468 := by
  rcases lt_or_le mp 10 with hlt | hge
  · rw [if_pos hlt, if_neg (show ¬ (mp + 3 ≤ 2) by omega)]
    unfold daysFromCivil
    simp only
    rw [if_neg (show ¬ (mp + 3 ≤ 2) by omega)]
    have h12 : (mp + 3 + 9) % 12 = mp := by omega
    rw [h12]
    have hA : (yoe + era * 400) / 400 = era := by omega
    rw [hA]
    have hB : yoe + era * 400 - era * 400 = yoe := by ring
    rw [hB]
    omega
  · rw [if_neg (show ¬ mp < 10 by omega), if_pos (show mp - 9 ≤ 2 by omega)]
    unfold daysFromCivil
    simp only
    rw [if_pos (show mp - 9 ≤ 2 by omega)]
    have h12 : (mp - 9 + 9) % 12 = mp := by omega
    rw [h12]
    have hC : yoe + era * 400 + 1 - 1 = yoe + era * 400 := by ring
    rw [hC]
    have hA : (yoe + era * 400) / 400 = era := by omega
    rw [hA]
    have hB : yoe + era * 400 - era * 400 = yoe := by ring
    rw [hB]
    omega

theorem doy_bounds (doe : Int) (h0 : 0 ≤ doe) (h1 : doe ≤ 146096) :
    0 ≤ doe - (365 * ((doe - doe / 1460 + doe / 36524 - doe / 146096) / 365) +
          ((doe - doe / 1460 + doe / 36524 - doe / 146096) / 365) / 4 -
          ((doe - doe / 1460 + doe / 36524 - doe / 146096) / 365) / 100) ∧
      doe - (365 * ((doe - doe / 1460 + doe / 36524 - doe / 146096) / 365) +
          ((doe - doe / 1460 + doe / 36524 - doe / 146096) / 365) / 4 -
          ((doe - doe / 1460 + doe / 36524 - doe / 146096) / 365) / 100) ≤ 365 := by
  set yoe := (doe - doe / 1460 + doe / 36524 - doe / 146096) / 365 with hyoe
  have hy0 : 0 ≤ yoe := by omega
  have hy1 : yoe ≤ 399 := by omega
  constructor
  · interval_cases yoe <;> omega
  · interval_cases yoe <;> omega

/-- The two calendar conversions are mutually inverse: recovering the civil
fields of a day number and re-encoding them yields the same day number.
This is the key consistency fact for the JavaScript Date model. -/
theorem daysFromCivil_civilFromDayNumber (z0 : Int) :
    daysFromCivil (civilFromDayNumber z0) = z0 := by
  have h0 : (0 : Int) ≤ (z0 + 719468) % 146097 := Int.emod_nonneg _ (by norm_num)
  have h1 : (z0 + 719468) % 146097 ≤ 146096 := by
    have := Int.emod_lt_of_pos (z0 + 719468) (b := 146097) (by norm_num)
    omega
  have hdoy := doy_bounds ((z0 + 719468) % 146097) h0 h1
  unfold civilFromDayNumber
  simp only
  rw [daysFromCivil_mk_aux _ _ _ _ (by omega) (by omega) (by omega) (by omega)]
  omega

theorem civilFromDayNumber_injective {z1 z2 : Int}
    (h : civilFromDayNumber z1 = civilFromDayNumber z2) : z1 = z2 := by
  have h1 := daysFromCivil_civilFromDayNumber z1
  have h2 := daysFromCivil_civilFromDayNumber z2
  rw [h] at h1
  omega

/-- daysFromCivil is affine in the day-of-month field (ECMAScript MakeDay
normalizes out-of-range day values by plain day arithmetic). -/
theorem daysFromCivil_day_affine (y m d1 d2 : Int) :
    daysFromCivil ⟨y, m, d1⟩ = daysFromCivil ⟨y, m, d2⟩ + (d1 - d2) := by
  unfold daysFromCivil
  simp only
  omega

/-! ### The JavaScript Date model

A Date is an integer count `ts` of minutes since the Unix epoch.  The
calendar getters recover civil fields from `ts`; the setters rebuild a
timestamp from modified fields (ECMAScript MakeDay/MakeDate). -/

/-- Civil date of a timestamp (getFullYear/getMonth/getDate combined).
1970-01-01 is day number 0. -/
def civilOf (ts : Int) : CivilDate := civilFromDayNumber (ts / 1440)

/-- JS Date.prototype.getDay: 0 = Sunday .. 6 = Saturday.
1970-01-01 (day number 0) was a Thursday, weekday 4. -/
def jsGetDay (ts : Int) : Int := (ts / 1440 + 4) % 7

/-- JS Date.prototype.getHours at minute resolution. -/
def jsGetHours (ts : Int) : Int := ts % 1440 / 60

/-- JS Date.prototype.getMinutes at minute resolution. -/
def jsGetMinutes (ts : Int) : Int := ts % 1440 % 60

/-- JS Date.prototype.setDate n: replaces the day-of-month field by n
(MakeDay normalizes out-of-range n by day arithmetic), keeping the time of
day. -/
def jsSetDate (ts n : Int) : Int :=
  daysFromCivil ⟨(civilOf ts).year, (civilOf ts).month, n⟩ * 1440 + ts % 1440

/-- JS Date.prototype.setMonth m0 (0-based month as in JS): MakeDay
normalizes month overflow into the year and day overflow into the next
month, keeping the day-of-month field and the time of day. -/
def jsSetMonth (ts m0 : Int) : Int :=
  daysFromCivil ⟨(civilOf ts).year + m0 / 12, m0 % 12 + 1, (civilOf ts).day⟩ * 1440 + ts % 1440

/-- JS Date.prototype.setMinutes m, keeping the rest of the timestamp. -/
def jsSetMinutes (ts m : Int) : Int := ts - ts % 1440 % 60 + m

/-- JS Date.prototype.setHours h (minutes kept), at minute resolution. -/
def jsSetHours (ts h : Int) : Int := ts - ts % 1440 + h * 60 + ts % 1440 % 60

theorem civilOf_eta (ts : Int) :
    (⟨(civilOf ts).year, (civilOf ts).month, (civilOf ts).day⟩ : CivilDate) = civilOf ts := rfl

theorem daysFromCivil_civilOf (ts : Int) : daysFromCivil (civilOf ts) = ts / 1440 :=
  daysFromCivil_civilFromDayNumber (ts / 1440)

/-! ### Bucket keys (src/lib/time-utils.js)

`getBucketKey` returns a canonical string per granularity
(`YYYY-MM-DD`, `YYYY-MM-DDThh:00`, `YYYY-MM-DDThh:mm`).  Keys are modelled
by their numeric fields; `renderKey` produces the padded string. -/

inductive BKey where
  | kmin (y mo d h mi : Int)
  | khour (y mo d h : Int)
  | kdate (y mo d : Int)
deriving DecidableEq, Repr

/-- String.padStart(2, [0]) composed with number formatting. -/
def pad2 (n : Int) : String :=
  let s := toString n
  if s.length < 2 then "0" ++ s else s

/-- The canonical key string built by getBucketKey. -/
def renderKey : BKey → String
  | .kdate y mo d => toString y ++ "-" ++ pad2 mo ++ "-" ++ pad2 d
  | .khour y mo d h => toString y ++ "-" ++ pad2 mo ++ "-" ++ pad2 d ++ "T" ++ pad2 h ++ ":00"
  | .kmin y mo d h mi =>
      toString y ++ "-" ++ pad2 mo ++ "-" ++ pad2 d ++ "T" ++ pad2 h ++ ":" ++ pad2 mi

/-- The start instant (in minutes) of the bucket a key denotes; used to
state chronological ordering of keys. -/
def keyTime : BKey → Int
  | .kdate y mo d => daysFromCivil ⟨y, mo, d⟩ * 1440
  | .khour y mo d h => daysFromCivil ⟨y, mo, d⟩ * 1440 + h * 60
  | .kmin y mo d h mi => daysFromCivil ⟨y, mo, d⟩ * 1440 + h * 60 + mi

/-- The daily-granularity key (also the target of the unknown-granularity
fallback, which the source expresses as a recursive call with [daily]). -/
def dailyKey (ts : Int) : BKey :=
  .kdate (civilOf ts).year (civilOf ts).month (civilOf ts).day

/-- getBucketKey(timestamp, aggregation) from src/lib/time-utils.js. -/
def getBucketKey (ts : Int) (aggregation : String) : BKey :=
  match aggregation with
  | "15min" =>
      .kmin (civilOf ts).year (civilOf ts).month (civilOf ts).day
        (jsGetHours ts) (jsGetMinutes ts / 15 * 15)
  | "hourly" =>
      .khour (civilOf ts).year (civilOf ts).month (civilOf ts).day (jsGetHours ts)
  | "daily" => dailyKey ts
  | "weekly" =>
      let day := jsGetDay ts
      let diff := (civilOf ts).day - day + (if day = 0 then -6 else 1)
      let monday := jsSetDate ts diff
      .kdate (civilOf monday).year (civilOf monday).month (civilOf monday).day
  | "monthly" => .kdate (civilOf ts).year (civilOf ts).month 1
  | _ => dailyKey ts

/-! ### Statistics engine (src/lib/statistics.js)

Pure reducers over `number[]`, modelled over ℚ.  Each mirrors the source
function of the same name; empty input returns 0 throughout. -/

/-- mean(values): sum / length, 0 on empty. -/
def mean (values : List ℚ) : ℚ :=
  if values.length = 0 then 0
  else values.foldl (fun acc val => acc + val) 0 / values.length

/-- min(values): Math.min over the array, 0 on empty. -/
def min (values : List ℚ) : ℚ :=
  match values with
  | [] => 0
  | x :: xs => xs.foldl Min.min x

/-- max(values): Math.max over the array, 0 on empty. -/
def max (values : List ℚ) : ℚ :=
  match values with
  | [] => 0
  | x :: xs => xs.foldl Max.max x

/-- median(values): sorts a copy ascending (numeric comparator, stable
sort); even length averages the two central values. -/
def median (values : List ℚ) : ℚ :=
  if values.length = 0 then 0
  else
    let sorted := List.insertionSort (· ≤ ·) values
    let mid := sorted.length / 2
    if sorted.length % 2 = 0 then (sorted.getD (mid - 1) 0 + sorted.getD mid 0) / 2
    else sorted.getD mid 0

/-- One step of the frequency map in mode(): JS Map.set keeps the position
of an existing key and appends a new key at the end. -/
def bumpCount (counts : List (ℚ × Nat)) (rounded : ℚ) : List (ℚ × Nat) :=
  if counts.any (fun kc => kc.1 == rounded) then
    counts.map (fun kc => if kc.1 = rounded then (kc.1, kc.2 + 1) else kc)
  else counts ++ [(rounded, 1)]

/-- mode(values): rounds to one decimal (Math.round rounds half up), counts
in insertion order, keeps the first-encountered value on ties. -/
def mode (values : List ℚ) : ℚ :=
  match values with
  | [] => 0
  | v0 :: _ =>
    let counts := values.foldl (fun cs val => bumpCount cs ((⌊val * 10 + 1 / 2⌋ : ℚ) / 10)) []
    (counts.foldl (fun best kc => if kc.2 > best.2 then kc else best) (v0, 0)).1

/-- The value percentile() computes once past its guards: linear
interpolation between the two nearest ranks on a sorted copy; p = 0 and
p = 100 return the exact extremes. -/
def percentileValue (values : List ℚ) (p : ℚ) : ℚ :=
  let sorted := List.insertionSort (· ≤ ·) values
  if p = 0 then sorted.getD 0 0
  else if p = 100 then sorted.getD (sorted.length - 1) 0
  else
    let index := p / 100 * ((sorted.length : ℚ) - 1)
    let lower := ⌊index⌋
    let upper := ⌈index⌉
    let fraction := index - (lower : ℚ)
    if lower = upper then sorted.getD lower.toNat 0
    else sorted.getD lower.toNat 0 * (1 - fraction) + sorted.getD upper.toNat 0 * fraction

/-- The number percentile() returns when it does not throw: the empty
check precedes the range check in the source. -/
def percentileOk (values : List ℚ) (p : ℚ) : ℚ :=
  if values.length = 0 then 0 else percentileValue values p

/-- percentile(values, p): returns 0 on empty input, throws when p is
outside [0,100], otherwise interpolates on a sorted copy. -/
def percentile (values : List ℚ) (p : ℚ) : Except String ℚ :=
  if values.length = 0 then .ok 0
  else if p < 0 ∨ p > 100 then .error "Percentile must be between 0 and 100"
  else .ok (percentileValue values p)

/-- total(values): sum, 0 on empty. -/
def total (values : List ℚ) : ℚ :=
  if values.length = 0 then 0
  else values.foldl (fun acc val => acc + val) 0

/-- standardDeviation(values): population standard deviation.  Rat.sqrt
stands in for the floating-point Math.sqrt; no verified claim depends on
the values this arm produces. -/
def standardDeviation (values : List ℚ) : ℚ :=
  if values.length = 0 then 0
  else if values.length = 1 then 0
  else
    let avg := mean values
    let squaredDiffs := values.map (fun val => (val - avg) ^ 2)
    Rat.sqrt (mean squaredDiffs)

/-- calculate(values, statisticType): name-based dispatcher with legacy
aliases; unknown names fall back to mean (the source logs a console
warning, not modelled).  The percentile arms call percentile() with
25/75/90, which are inside [0,100], so the throwing branch is unreachable
and the returned number is percentileOk. -/
def calculate (values : List ℚ) (statisticType : String) : ℚ :=
  match statisticType with
  | "average" | "mean" => mean values
  | "min" | "minimum" => min values
  | "max" | "maximum" => max values
  | "median" => median values
  | "mode" => mode values
  | "p25" | "percentile25" => percentileOk values 25
  | "p75" | "percentile75" => percentileOk values 75
  | "p90" | "percentile90" => percentileOk values 90
  | "stddev" | "standardDeviation" => standardDeviation values
  | "total" | "sum" => total values
  | _ => mean values

/-! ### Temporal filtering and bucketing (src/lib/time-utils.js) -/

/-- A reading record.  Region readings carry regionId, blockface readings
blockfaceId; a single record type carries both (JS objects are
duck-typed).  transactions is present in transaction datasets; the
source's [r.transactions or 0] coalescing only replaces a missing or zero
value by 0, which on a present numeric field is the identity. -/
structure Reading where
  timestamp : Int
  regionId : String
  blockfaceId : String
  occupied : ℚ
  capacity : ℚ
  transactions : ℚ
deriving DecidableEq, Repr

/-- A time range given as two dates (YYYY-MM-DD); end is inclusive and
extended to end of day. -/
structure TimeRange where
  start : CivilDate
  endDate : CivilDate
deriving DecidableEq, Repr

/-- new Date(range.start): midnight of the start date, in minutes. -/
def rangeStartMin (range : TimeRange) : Int := daysFromCivil range.start * 1440

/-- new Date(range.end) followed by setHours(23, 59, 59, 999): the last
minute of the end date. -/
def rangeEndMin (range : TimeRange) : Int := daysFromCivil range.endDate * 1440 + 1439

/-- isInRange(timestamp, range): inclusive containment against start of
start day and end of end day. -/
def isInRange (ts : Int) (range : TimeRange) : Bool :=
  decide (rangeStartMin range ≤ ts) && decide (ts ≤ rangeEndMin range)

/-- getDayOfWeek(timestamp) = new Date(timestamp).getDay(). -/
def getDayOfWeek (ts : Int) : Int := jsGetDay ts

/-- getHour(timestamp) = new Date(timestamp).getHours(). -/
def getHour (ts : Int) : Int := jsGetHours ts

/-- filterByDayOfWeek(readings, days): identity when days is empty or has
7 entries, else keeps readings whose weekday is listed. -/
def filterByDayOfWeek (readings : List Reading) (days : List Int) : List Reading :=
  if days.length = 0 ∨ days.length = 7 then readings
  else readings.filter (fun r => days.contains (getDayOfWeek r.timestamp))

/-- filterByHourRange(readings, ranges): identity when ranges is empty,
else keeps readings whose hour falls inside any inclusive [start, end]
pair. -/
def filterByHourRange (readings : List Reading) (ranges : List (Int × Int)) : List Reading :=
  if ranges.length = 0 then readings
  else readings.filter (fun r =>
    ranges.any (fun se => decide (se.1 ≤ getHour r.timestamp) && decide (getHour r.timestamp ≤ se.2)))

/-- The loop body of bucketize: JS Map semantics, where an existing key
keeps its position and the reading is pushed onto its bucket, and a new
key goes to the end of the iteration order. -/
def bucketInsert (aggregation : String) (buckets : List (BKey × List Reading))
    (reading : Reading) : List (BKey × List Reading) :=
  let key := getBucketKey reading.timestamp aggregation
  if buckets.any (fun kb => kb.1 == key) then
    buckets.map (fun kb => if kb.1 = key then (kb.1, kb.2 ++ [reading]) else kb)
  else buckets ++ [(key, [reading])]

/-- bucketize(readings, aggregation): a single left-to-right pass grouping
readings into an insertion-ordered associative container keyed by bucket
key. -/
def bucketize (readings : List Reading) (aggregation : String) : List (BKey × List Reading) :=
  readings.foldl (bucketInsert aggregation) []

/-- The per-iteration increment of generateBucketRange's loop, written
with the JS Date setters the source calls. -/
def stepInstant (aggregation : String) (t : Int) : Int :=
  match aggregation with
  | "15min" => jsSetMinutes t (jsGetMinutes t + 15)
  | "hourly" => jsSetHours t (jsGetHours t + 1)
  | "daily" => jsSetDate t ((civilOf t).day + 1)
  | "weekly" => jsSetDate t ((civilOf t).day + 7)
  | "monthly" => jsSetMonth t ((civilOf t).month - 1 + 1)
  | _ => jsSetDate t ((civilOf t).day + 1)

/-- The while-loop of generateBucketRange: collect the key of each stepped
instant while it is at most the end instant, deduplicating by key equality
([keys.includes]).  The fuel argument is a termination bound only: every
step advances the instant by at least one minute, so the caller passes one
more than the minute span and the loop always exits through its
condition. -/
def genLoop (aggregation : String) (endMin : Int) : Nat → Int → List BKey → List BKey
  | 0, _, keys => keys
  | fuel + 1, current, keys =>
    if current ≤ endMin then
      let key := getBucketKey current aggregation
      let keys2 := if keys.contains key then keys else keys ++ [key]
      genLoop aggregation endMin fuel (stepInstant aggregation current) keys2
    else keys

/-- generateBucketRange(range, aggregation) from src/lib/time-utils.js. -/
def generateBucketRange (range : TimeRange) (aggregation : String) : List BKey :=
  genLoop aggregation (rangeEndMin range)
    ((rangeEndMin range - rangeStartMin range).toNat + 1) (rangeStartMin range) []

/-! ### The map/chart pipeline (main module)

The per-entity bodies of calculateNeighborhoodOccupancy,
calculateBlockfaceOccupancy, processAOISeries (individual-AOI branch) and
processBlockfaceSeries, plus the shared filter prefixes. -/

/-- The configuration snapshot the pipeline reads from the app state. -/
structure AppState where
  timeRange : TimeRange
  datePatternType : String
  datePatternDays : List Int
  timePatternType : String
  timePatternRanges : List (Int × Int)
  aggregation : String
  statistic : String
  seriesDimensionType : String

/-- Steps 1-3 of runDataPipeline: time-range filter, then day-of-week
filter (skipped when the series dimension is dayOfWeek), then hour filter
(skipped when the series dimension is timeOfDay). -/
def pipelineFilter (st : AppState) (readings : List Reading) : List Reading :=
  let r1 := readings.filter (fun r => isInRange r.timestamp st.timeRange)
  let r2 := if st.datePatternType ≠ "all" ∧ st.seriesDimensionType ≠ "dayOfWeek" then
      filterByDayOfWeek r1 st.datePatternDays else r1
  if st.timePatternType ≠ "all" ∧ st.seriesDimensionType ≠ "timeOfDay" then
    filterByHourRange r2 st.timePatternRanges else r2

/-- The identical filter prefix at the top of
calculateNeighborhoodOccupancy ([Apply same filters as chart]). -/
def mapAoiFilter (st : AppState) (readings : List Reading) : List Reading :=
  let r1 := readings.filter (fun r => isInRange r.timestamp st.timeRange)
  let r2 := if st.datePatternType ≠ "all" ∧ st.seriesDimensionType ≠ "dayOfWeek" then
      filterByDayOfWeek r1 st.datePatternDays else r1
  if st.timePatternType ≠ "all" ∧ st.seriesDimensionType ≠ "timeOfDay" then
    filterByHourRange r2 st.timePatternRanges else r2

/-- The filter prefix of calculateBlockfaceOccupancy: same three steps but
without the series-dimension guards. -/
def mapBlockfaceFilter (st : AppState) (readings : List Reading) : List Reading :=
  let r1 := readings.filter (fun r => isInRange r.timestamp st.timeRange)
  let r2 := if st.datePatternType ≠ "all" then filterByDayOfWeek r1 st.datePatternDays else r1
  if st.timePatternType ≠ "all" then filterByHourRange r2 st.timePatternRanges else r2

/-- The per-region body of the loop in calculateNeighborhoodOccupancy:
readings of the region, value 0 when none matches, else the selected
statistic per bucket averaged across all buckets. -/
def neighborhoodValue (st : AppState) (isTransactions : Bool) (filtered : List Reading)
    (regionId : String) : ℚ :=
  let regionReadings := filtered.filter (fun r => r.regionId == regionId)
  if regionReadings.length = 0 then 0
  else
    let buckets := bucketize regionReadings st.aggregation
    let bucketStats := buckets.map (fun kb =>
      let values := if isTransactions then kb.2.map (fun r => r.transactions)
        else kb.2.map (fun r => r.occupied / r.capacity * 100)
      calculate values st.statistic)
    if bucketStats.length > 0 then
      bucketStats.foldl (fun a b => a + b) 0 / bucketStats.length
    else 0

/-- An area-of-interest record as the map sees it (data.regions entry). -/
structure Region where
  id : String
  name : String
  color : String

/-- One entry of the map-coloring output. -/
structure MapEntry where
  id : String
  value : ℚ

/-- calculateNeighborhoodOccupancy: filter once, then one value per
region. -/
def calculateNeighborhoodOccupancy (st : AppState) (isTransactions : Bool)
    (readings : List Reading) (regions : List Region) : List MapEntry :=
  let filtered := mapAoiFilter st readings
  regions.map (fun region => ⟨region.id, neighborhoodValue st isTransactions filtered region.id⟩)

/-- One chart data point: bucket key and post-statistic value. -/
structure SeriesPoint where
  timestamp : BKey
  value : ℚ
deriving DecidableEq, Repr

/-- A chart series: points plus the reference (summary) value drawn as the
dashed line. -/
structure Series where
  id : String
  data : List SeriesPoint
  referenceValue : ℚ
deriving DecidableEq, Repr

/-- The dataPoints.sort comparator: localeCompare on the canonical key
strings, which on keys of a single granularity is chronological order;
modelled by the bucket start instant. -/
def pointLe (a b : SeriesPoint) : Prop := keyTime a.timestamp ≤ keyTime b.timestamp

instance : DecidableRel pointLe := fun a b =>
  inferInstanceAs (Decidable (keyTime a.timestamp ≤ keyTime b.timestamp))

/-- The individual-AOI iteration of processAOISeries: readings of the AOI,
statistic per bucket, points sorted chronologically, referenceValue = mean
of the point values. -/
def processAOISingle (st : AppState) (isTransactions : Bool) (filtered : List Reading)
    (aoiId : String) : Series :=
  let aoiReadings := filtered.filter (fun r => r.regionId == aoiId)
  let buckets := bucketize aoiReadings st.aggregation
  let dataPoints := buckets.map (fun kb =>
    let values := if isTransactions then kb.2.map (fun r => r.transactions)
      else kb.2.map (fun r => r.occupied / r.capacity * 100)
    (⟨kb.1, calculate values st.statistic⟩ : SeriesPoint))
  let sortedPoints := List.insertionSort pointLe dataPoints
  let referenceValue := if sortedPoints.length > 0 then
      sortedPoints.foldl (fun sum p => sum + p.value) (0 : ℚ) / sortedPoints.length
    else 0
  ⟨aoiId, sortedPoints, referenceValue⟩

/-- A featured blockface record (blockfaceData.blockfaces entry);
baseOccupancy is the present-moment metadata fallback. -/
structure Blockface where
  id : String
  segmentId : String
  name : String
  baseOccupancy : ℚ

/-- The per-blockface body of the loop in calculateBlockfaceOccupancy:
the metadata fallback when no reading matches, else the statistic per
bucket averaged across buckets.  On a present numeric field the source's
[baseOccupancy or 0] coalescing is the identity. -/
def blockfaceMapValue (st : AppState) (isTransactions : Bool) (filtered : List Reading)
    (blockface : Blockface) : ℚ :=
  let blockfaceReadings := filtered.filter (fun r => r.blockfaceId == blockface.id)
  if blockfaceReadings.length = 0 then blockface.baseOccupancy
  else
    let buckets := bucketize blockfaceReadings st.aggregation
    let bucketStats := buckets.map (fun kb =>
      let values := if isTransactions then kb.2.map (fun r => r.transactions)
        else kb.2.map (fun r => if r.capacity > 0 then r.occupied / r.capacity * 100 else 0)
      calculate values st.statistic)
    if bucketStats.length > 0 then
      bucketStats.foldl (fun a b => a + b) 0 / bucketStats.length
    else 0

/-- The per-blockface iteration of processBlockfaceSeries: filter to the
blockface, apply the time-range and pattern filters, produce no series
when nothing remains, else buckets → sorted points → referenceValue.  The
typeof guards on occupied/capacity always pass in the model (fields are
numbers). -/
def processBlockfaceSingle (st : AppState) (isTransactions : Bool) (allReadings : List Reading)
    (blockface : Blockface) : Option Series :=
  let readings0 := allReadings.filter (fun r => r.blockfaceId == blockface.id)
  let readings1 := readings0.filter (fun r => isInRange r.timestamp st.timeRange)
  let readings2 := if st.datePatternType ≠ "all" then
      filterByDayOfWeek readings1 st.datePatternDays else readings1
  let readings3 := if st.timePatternType ≠ "all" then
      filterByHourRange readings2 st.timePatternRanges else readings2
  if readings3.length = 0 then none
  else
    let buckets := bucketize readings3 st.aggregation
    let dataPoints := buckets.map (fun kb =>
      let values := if isTransactions then kb.2.map (fun r => r.transactions)
        else kb.2.map (fun r => if r.capacity > 0 then r.occupied / r.capacity * 100 else 0)
      (⟨kb.1, calculate values st.statistic⟩ : SeriesPoint))
    let sortedPoints := List.insertionSort pointLe dataPoints
    let referenceValue := if sortedPoints.length > 0 then
        sortedPoints.foldl (fun sum p => sum + p.value) (0 : ℚ) / sortedPoints.length
      else 0
    some ⟨blockface.id, sortedPoints, referenceValue⟩

/-- calculateBlockfaceOccupancy: filter once, then one value per featured
blockface. -/
def calculateBlockfaceOccupancy (st : AppState) (isTransactions : Bool)
    (readings : List Reading) (blockfaces : List Blockface) : List MapEntry :=
  let filtered := mapBlockfaceFilter st readings
  blockfaces.map (fun blockface =>
    ⟨blockface.segmentId, blockfaceMapValue st isTransactions filtered blockface⟩)

/-! ### Spec-side notions used to state the claims -/

/-- The keys of a list in order of first appearance (the partition/order
contract of bucketize); a statement-side notion, not program code. -/
def firstAppearance (keys : List BKey) : List BKey :=
  keys.foldl (fun acc k => if acc.contains k then acc else acc ++ [k]) []

/-! ### Lemmas about the Date setters and the loop steps -/

/-- setDate with an offset from the current day-of-month shifts the
timestamp by whole days. -/
theorem jsSetDate_shift (ts δ : Int) :
    jsSetDate ts ((civilOf ts).day + δ) = ts + δ * 1440 := by
  unfold jsSetDate
  rw [daysFromCivil_day_affine (civilOf ts).year (civilOf ts).month
      ((civilOf ts).day + δ) (civilOf ts).day,
    civilOf_eta, daysFromCivil_civilOf]
  omega

theorem stepInstant_15min (t : Int) : stepInstant "15min" t = t + 15 := by
  show jsSetMinutes t (jsGetMinutes t + 15) = t + 15
  unfold jsSetMinutes jsGetMinutes
  omega

theorem stepInstant_hourly (t : Int) : stepInstant "hourly" t = t + 60 := by
  show jsSetHours t (jsGetHours t + 1) = t + 60
  unfold jsSetHours jsGetHours
  omega

theorem stepInstant_daily (t : Int) : stepInstant "daily" t = t + 1440 := by
  show jsSetDate t ((civilOf t).day + 1) = t + 1440
  have := jsSetDate_shift t 1
  omega

/-! ### Claims -/

/-- C8: for every nonempty finite array v of numbers, mean v equals
total v divided by the length of v; and on the empty array mean, min and
max each return 0. -/
theorem claim_C8_mean_total_empty_defaults :
    (∀ v : List ℚ, v ≠ [] → mean v = total v / (v.length : ℚ)) ∧
      mean [] = 0 ∧ min [] = 0 ∧ max [] = 0 := by
  refine ⟨?_, rfl, rfl, rfl⟩
  intro v hv
  unfold mean total
  rw [if_neg (by simpa using hv), if_neg (by simpa using hv)]

/-- Witness for C8 at v = [2, 4]. -/
theorem claim_C8_witness :
    mean [(2 : ℚ), 4] = total [(2 : ℚ), 4] / (([(2 : ℚ), 4].length : ℕ) : ℚ) :=
  claim_C8_mean_total_empty_defaults.1 [2, 4] (by decide)

/-- C9: filtering by an empty day list or by all seven weekdays returns
the reading list unchanged, same elements in the same order. -/
theorem claim_C9_filter_identity : ∀ readings : List Reading,
    filterByDayOfWeek readings [] = readings ∧
      filterByDayOfWeek readings [0, 1, 2, 3, 4, 5, 6] = readings := by
  intro readings
  exact ⟨rfl, rfl⟩

/-- C10: the identity case of filterByDayOfWeek is decided by the length
of the days array alone: any 7-entry array, whatever its entries, returns
the input unchanged. -/
theorem claim_C10_filter_identity_by_length :
    ∀ (readings : List Reading) (days : List Int),
      days.length = 7 → filterByDayOfWeek readings days = readings := by
  intro readings days h
  unfold filterByDayOfWeek
  rw [if_pos (Or.inr h)]

/-- Witness for C10: a Sunday reading survives days = [1,1,1,1,1,1,1]
even though weekday 0 is not listed. -/
theorem claim_C10_witness :
    filterByDayOfWeek [⟨19729 * 1440, "mission", "bf-1", 10, 20, 0⟩]
        [1, 1, 1, 1, 1, 1, 1] =
      [⟨19729 * 1440, "mission", "bf-1", 10, 20, 0⟩] :=
  claim_C10_filter_identity_by_length _ _ (by decide)

/-- C6: calculate falls back to mean, without raising, on every statistic
name outside the recognized names and legacy aliases. -/
theorem claim_C6_unknown_statistic_fallback :
    ∀ (v : List ℚ) (name : String),
      name ∉ ["average", "mean", "min", "minimum", "max", "maximum", "median", "mode",
        "p25", "percentile25", "p75", "percentile75", "p90", "percentile90",
        "stddev", "standardDeviation", "total", "sum"] →
      calculate v name = mean v := by
  intro v name h
  simp only [List.mem_cons, List.not_mem_nil, or_false, not_or] at h
  unfold calculate
  split <;> simp_all

/-- Witness for C6 at name = [unknownStat]. -/
theorem claim_C6_witness :
    calculate [(1 : ℚ), 2, 3] "unknownStat" = mean [(1 : ℚ), 2, 3] :=
  claim_C6_unknown_statistic_fallback [1, 2, 3] "unknownStat" (by decide)

/-- C4 counterexample: on the empty array percentile does not raise for
p = 101; the empty check precedes the range check and returns 0. -/
theorem claim_C4_counterexample :
    percentile ([] : List ℚ) 101 = Except.ok 0 ∧
      ∀ msg : String, percentile ([] : List ℚ) 101 ≠ Except.error msg := by
  refine ⟨rfl, fun msg h => ?_⟩
  simp [percentile] at h

/-- C4 amended: for every nonempty v, percentile raises exactly when p is
outside [0,100]; on the empty array it returns 0 without raising; for p
within [0,100] it never raises (on any v). -/
theorem claim_C4_percentile_error_handling :
    ∀ (v : List ℚ) (p : ℚ),
      (v ≠ [] → p < 0 ∨ 100 < p →
        percentile v p = Except.error "Percentile must be between 0 and 100") ∧
      (0 ≤ p → p ≤ 100 → percentile v p = Except.ok (percentileOk v p)) := by
  intro v p
  constructor
  · intro hv hp
    unfold percentile
    rw [if_neg (by simpa using hv), if_pos hp]
  · intro hp0 hp1
    unfold percentile percentileOk
    rcases Nat.eq_zero_or_pos v.length with hv | hv
    · rw [if_pos hv, if_pos hv]
    · rw [if_neg (show ¬ (v.length = 0) by omega),
        if_neg (show ¬ (v.length = 0) by omega),
        if_neg (show ¬ (p < 0 ∨ 100 < p) by simp only [not_or, not_lt]; exact ⟨hp0, hp1⟩)]

/-- Witness for C4: the raising case at v = [1], p = 101 and the
non-raising case at p = 50. -/
theorem claim_C4_witness :
    percentile [(1 : ℚ)] 101 = Except.error "Percentile must be between 0 and 100" ∧
      percentile ([] : List ℚ) 50 = Except.ok (percentileOk [] 50) :=
  ⟨(claim_C4_percentile_error_handling [1] 101).1 (by decide) (by norm_num),
    (claim_C4_percentile_error_handling [] 50).2 (by norm_num) (by norm_num)⟩

/-- C5: for every timestamp, the 15min key keeps the date and hour and
floors the minutes to the nearest lower multiple of 15; the weekly key is
a date that falls on a Monday (weekday 1) at most 6 days before the
timestamp; the monthly key is the 1st of the timestamp's month; and every
unrecognized granularity produces the daily key. -/
theorem claim_C5_bucket_key_shapes :
    ∀ (ts : Int) (g : String),
      g ∉ ["15min", "hourly", "daily", "weekly", "monthly"] →
      (getBucketKey ts "15min" =
          .kmin (civilOf ts).year (civilOf ts).month (civilOf ts).day (jsGetHours ts)
            (jsGetMinutes ts / 15 * 15) ∧
        jsGetMinutes ts / 15 * 15 % 15 = 0 ∧
        jsGetMinutes ts / 15 * 15 ≤ jsGetMinutes ts ∧
        jsGetMinutes ts < jsGetMinutes ts / 15 * 15 + 15) ∧
      (∃ y mo d, getBucketKey ts "weekly" = .kdate y mo d ∧
        (daysFromCivil ⟨y, mo, d⟩ + 4) % 7 = 1 ∧
        0 ≤ ts / 1440 - daysFromCivil ⟨y, mo, d⟩ ∧
        ts / 1440 - daysFromCivil ⟨y, mo, d⟩ ≤ 6) ∧
      getBucketKey ts "monthly" = .kdate (civilOf ts).year (civilOf ts).month 1 ∧
      getBucketKey ts g = getBucketKey ts "daily" := by
  intro ts g hg
  refine ⟨⟨rfl, ?_, ?_, ?_⟩, ?_, rfl, ?_⟩
  · unfold jsGetMinutes; omega
  · unfold jsGetMinutes; omega
  · unfold jsGetMinutes; omega
  · have hkey : getBucketKey ts "weekly" =
        .kdate (civilOf (jsSetDate ts ((civilOf ts).day - jsGetDay ts +
            (if jsGetDay ts = 0 then -6 else 1)))).year
          (civilOf (jsSetDate ts ((civilOf ts).day - jsGetDay ts +
            (if jsGetDay ts = 0 then -6 else 1)))).month
          (civilOf (jsSetDate ts ((civilOf ts).day - jsGetDay ts +
            (if jsGetDay ts = 0 then -6 else 1)))).day := rfl
    have hshift : jsSetDate ts ((civilOf ts).day - jsGetDay ts +
        (if jsGetDay ts = 0 then -6 else 1)) =
        ts + ((if jsGetDay ts = 0 then -6 else 1) - jsGetDay ts) * 1440 := by
      have harg : (civilOf ts).day - jsGetDay ts + (if jsGetDay ts = 0 then -6 else 1) =
          (civilOf ts).day + ((if jsGetDay ts = 0 then -6 else 1) - jsGetDay ts) := by ring
      rw [harg, jsSetDate_shift]
    refine ⟨_, _, _, hkey, ?_, ?_, ?_⟩ <;>
      rw [civilOf_eta, daysFromCivil_civilOf, hshift] <;>
      have hw : jsGetDay ts = (ts / 1440 + 4) % 7 := rfl <;>
      by_cases h0 : jsGetDay ts = 0
    · rw [if_pos h0] at *; omega
    · rw [if_neg h0] at *; omega
    · rw [if_pos h0] at *; omega
    · rw [if_neg h0] at *; omega
    · rw [if_pos h0] at *; omega
    · rw [if_neg h0] at *; omega
  · unfold getBucketKey
    split <;> simp_all

/-- Witness for C5 at an unrecognized granularity string. -/
theorem claim_C5_witness :
    getBucketKey (19728 * 1440 + 640) "quarterly" = getBucketKey (19728 * 1440 + 640) "daily" :=
  (claim_C5_bucket_key_shapes (19728 * 1440 + 640) "quarterly" (by decide)).2.2.2

/-! ### Lemmas about Math.min/Math.max folds and sorted copies -/

theorem foldlMin_spec (xs : List ℚ) (x : ℚ) :
    xs.foldl Min.min x ∈ x :: xs ∧ ∀ z ∈ x :: xs, xs.foldl Min.min x ≤ z := by
  induction xs generalizing x with
  | nil =>
    refine ⟨List.mem_cons_self _ _, ?_⟩
    intro z hz
    rcases List.mem_cons.mp hz with rfl | hz
    · rfl
    · exact absurd hz (List.not_mem_nil z)
  | cons y ys ih =>
    obtain ⟨hmem, hle⟩ := ih (Min.min x y)
    rw [List.foldl_cons]
    constructor
    · rcases List.mem_cons.mp hmem with h | h
      · rw [h]
        rcases min_choice x y with hc | hc <;> rw [hc]
        · exact List.mem_cons_self _ _
        · exact List.mem_cons_of_mem _ (List.mem_cons_self _ _)
      · exact List.mem_cons_of_mem _ (List.mem_cons_of_mem _ h)
    · intro z hz
      rcases List.mem_cons.mp hz with rfl | hz
      · exact le_trans (hle _ (List.mem_cons_self _ _)) (min_le_left _ _)
      rcases List.mem_cons.mp hz with rfl | hz
      · exact le_trans (hle _ (List.mem_cons_self _ _)) (min_le_right _ _)
      · exact hle z (List.mem_cons_of_mem _ hz)

theorem foldlMax_spec (xs : List ℚ) (x : ℚ) :
    xs.foldl Max.max x ∈ x :: xs ∧ ∀ z ∈ x :: xs, z ≤ xs.foldl Max.max x := by
  induction xs generalizing x with
  | nil =>
    refine ⟨List.mem_cons_self _ _, ?_⟩
    intro z hz
    rcases List.mem_cons.mp hz with rfl | hz
    · rfl
    · exact absurd hz (List.not_mem_nil z)
  | cons y ys ih =>
    obtain ⟨hmem, hle⟩ := ih (Max.max x y)
    rw [List.foldl_cons]
    constructor
    · rcases List.mem_cons.mp hmem with h | h
      · rw [h]
        rcases max_choice x y with hc | hc <;> rw [hc]
        · exact List.mem_cons_self _ _
        · exact List.mem_cons_of_mem _ (List.mem_cons_self _ _)
      · exact List.mem_cons_of_mem _ (List.mem_cons_of_mem _ h)
    · intro z hz
      rcases List.mem_cons.mp hz with rfl | hz
      · exact le_trans (le_max_left _ _) (hle _ (List.mem_cons_self _ _))
      rcases List.mem_cons.mp hz with rfl | hz
      · exact le_trans (le_max_right _ _) (hle _ (List.mem_cons_self _ _))
      · exact hle z (List.mem_cons_of_mem _ hz)

theorem min_spec (v : List ℚ) (hv : v ≠ []) : min v ∈ v ∧ ∀ z ∈ v, min v ≤ z := by
  match v with
  | [] => exact absurd rfl hv
  | x :: xs => exact foldlMin_spec xs x

theorem max_spec (v : List ℚ) (hv : v ≠ []) : max v ∈ v ∧ ∀ z ∈ v, z ≤ max v := by
  match v with
  | [] => exact absurd rfl hv
  | x :: xs => exact foldlMax_spec xs x

theorem insertionSort_ne_nil {v : List ℚ} (hv : v ≠ []) :
    List.insertionSort (· ≤ ·) v ≠ [] := by
  intro h
  apply hv
  have := (List.perm_insertionSort (· ≤ ·) v).length_eq
  rw [h] at this
  exact List.length_eq_zero.mp this.symm

theorem percentileValue_zero (v : List ℚ) (hv : v ≠ []) : percentileValue v 0 = min v := by
  unfold percentileValue
  rw [if_pos rfl]
  have hperm := List.perm_insertionSort (· ≤ ·) v
  have hsorted := List.sorted_insertionSort (· ≤ ·) v
  obtain ⟨a, t, hst⟩ := List.exists_cons_of_ne_nil (insertionSort_ne_nil hv)
  rw [hst] at hperm hsorted
  rw [hst, List.getD_cons_zero]
  obtain ⟨hminMem, hminLe⟩ := min_spec v hv
  have hmins : min v ∈ a :: t := hperm.mem_iff.mpr hminMem
  have hamem : a ∈ v := hperm.mem_iff.mp (List.mem_cons_self a t)
  rcases List.mem_cons.mp hmins with h | h
  · exact h.symm
  · exact le_antisymm (List.rel_of_sorted_cons hsorted _ h) (hminLe a hamem)

theorem percentileValue_hundred (v : List ℚ) (hv : v ≠ []) : percentileValue v 100 = max v := by
  unfold percentileValue
  rw [if_neg (by norm_num : ¬ (100 : ℚ) = 0), if_pos rfl]
  have hperm := List.perm_insertionSort (· ≤ ·) v
  have hsorted := List.sorted_insertionSort (· ≤ ·) v
  have hlen : 0 < (List.insertionSort (· ≤ ·) v).length := by
    rcases Nat.eq_zero_or_pos (List.insertionSort (· ≤ ·) v).length with h | h
    · exact absurd (List.length_eq_zero.mp h) (insertionSort_ne_nil hv)
    · exact h
  have hidx : (List.insertionSort (· ≤ ·) v).length - 1 < (List.insertionSort (· ≤ ·) v).length := by
    omega
  rw [List.getD_eq_getElem _ 0 hidx]
  obtain ⟨hmaxMem, hmaxLe⟩ := max_spec v hv
  refine le_antisymm (hmaxLe _ (hperm.mem_iff.mp (List.getElem_mem hidx))) ?_
  obtain ⟨i, hi⟩ := List.mem_iff_get.mp (hperm.mem_iff.mpr hmaxMem)
  rcases Nat.lt_or_ge i.val ((List.insertionSort (· ≤ ·) v).length - 1) with h | h
  · have := hsorted.rel_get_of_lt (a := i)
      (b := ⟨(List.insertionSort (· ≤ ·) v).length - 1, hidx⟩) h
    rw [hi] at this
    simpa using this
  · have hieq : i.val = (List.insertionSort (· ≤ ·) v).length - 1 := by
      have := i.isLt
      omega
    rw [← hi]
    simp only [List.get_eq_getElem, hieq]
    exact le_rfl

theorem percentileValue_fifty (v : List ℚ) (hv : v ≠ []) : percentileValue v 50 = median v := by
  unfold percentileValue median
  dsimp only
  rw [if_neg (by norm_num : ¬ (50 : ℚ) = 0), if_neg (by norm_num : ¬ (50 : ℚ) = 100),
    if_neg (show ¬ (v.length = 0) by simpa [List.length_eq_zero] using hv)]
  have hlen : 0 < (List.insertionSort (· ≤ ·) v).length := by
    rcases Nat.eq_zero_or_pos (List.insertionSort (· ≤ ·) v).length with h | h
    · exact absurd (List.length_eq_zero.mp h) (insertionSort_ne_nil hv)
    · exact h
  rcases Nat.mod_two_eq_zero_or_one (List.insertionSort (· ≤ ·) v).length with he | ho
  · obtain ⟨m, hm⟩ : ∃ m, (List.insertionSort (· ≤ ·) v).length = 2 * m :=
      ⟨(List.insertionSort (· ≤ ·) v).length / 2, by omega⟩
    have hm1 : 1 ≤ m := by omega
    have hidx : (50 : ℚ) / 100 * (((List.insertionSort (· ≤ ·) v).length : ℚ) - 1) =
        (m : ℚ) - 1 / 2 := by
      rw [hm]; push_cast; ring
    rw [hidx]
    have hfl : ⌊(m : ℚ) - 1 / 2⌋ = (m : ℤ) - 1 := by
      rw [Int.floor_eq_iff]
      constructor <;> push_cast <;> linarith
    have hcl : ⌈(m : ℚ) - 1 / 2⌉ = (m : ℤ) := by
      rw [Int.ceil_eq_iff]
      constructor <;> push_cast <;> linarith
    rw [hfl, hcl, if_neg (show ¬ ((m : ℤ) - 1 = (m : ℤ)) by omega),
      if_pos (show (List.insertionSort (· ≤ ·) v).length % 2 = 0 from he)]
    have ht1 : ((m : ℤ) - 1).toNat = m - 1 := by omega
    have ht2 : ((m : ℤ)).toNat = m := by omega
    have hmid : (List.insertionSort (· ≤ ·) v).length / 2 = m := by omega
    rw [ht1, ht2, hmid]
    have hfr : (m : ℚ) - 1 / 2 - (((m : ℤ) - 1 : ℤ) : ℚ) = 1 / 2 := by
      push_cast; ring
    rw [hfr]
    ring
  · obtain ⟨m, hm⟩ : ∃ m, (List.insertionSort (· ≤ ·) v).length = 2 * m + 1 :=
      ⟨(List.insertionSort (· ≤ ·) v).length / 2, by omega⟩
    have hidx : (50 : ℚ) / 100 * (((List.insertionSort (· ≤ ·) v).length : ℚ) - 1) =
        ((m : ℤ) : ℚ) := by
      rw [hm]; push_cast; ring
    rw [hidx, Int.floor_intCast, Int.ceil_intCast, if_pos rfl]
    have ht : ((m : ℤ)).toNat = m := by omega
    have hmid : (List.insertionSort (· ≤ ·) v).length / 2 = m := by omega
    rw [ht, hmid, if_neg (show ¬ ((List.insertionSort (· ≤ ·) v).length % 2 = 0) by omega)]

/-! ### Lemmas about bucketize and first-appearance key order -/

theorem firstAppearance_mem_aux (xs : List BKey) :
    ∀ (acc : List BKey) (k : BKey),
      k ∈ xs.foldl (fun acc k => if acc.contains k then acc else acc ++ [k]) acc ↔
        k ∈ acc ∨ k ∈ xs := by
  induction xs with
  | nil => intro acc k; simp
  | cons x xs ih =>
    intro acc k
    rw [List.foldl_cons]
    by_cases hx : acc.contains x
    · rw [if_pos hx, ih]
      have hxacc : x ∈ acc := List.elem_iff.mp hx
      constructor
      · rintro (h | h)
        · exact Or.inl h
        · exact Or.inr (List.mem_cons_of_mem _ h)
      · rintro (h | h)
        · exact Or.inl h
        · rcases List.mem_cons.mp h with rfl | h
          · exact Or.inl hxacc
          · exact Or.inr h
    · rw [if_neg hx, ih]
      constructor
      · rintro (h | h)
        · rcases List.mem_append.mp h with h | h
          · exact Or.inl h
          · rcases List.mem_singleton.mp h with rfl
            exact Or.inr (List.mem_cons_self _ _)
        · exact Or.inr (List.mem_cons_of_mem _ h)
      · rintro (h | h)
        · exact Or.inl (List.mem_append.mpr (Or.inl h))
        · rcases List.mem_cons.mp h with rfl | h
          · exact Or.inl (List.mem_append.mpr (Or.inr (List.mem_singleton.mpr rfl)))
          · exact Or.inr h

theorem mem_firstAppearance {xs : List BKey} {k : BKey} :
    k ∈ firstAppearance xs ↔ k ∈ xs := by
  unfold firstAppearance
  rw [firstAppearance_mem_aux]
  simp

theorem firstAppearance_nodup_aux (xs : List BKey) :
    ∀ acc : List BKey, acc.Nodup →
      (xs.foldl (fun acc k => if acc.contains k then acc else acc ++ [k]) acc).Nodup := by
  induction xs with
  | nil => intro acc h; exact h
  | cons x xs ih =>
    intro acc h
    rw [List.foldl_cons]
    by_cases hx : acc.contains x
    · rw [if_pos hx]; exact ih acc h
    · rw [if_neg hx]
      refine ih _ ?_
      rw [List.nodup_append]
      refine ⟨h, List.nodup_singleton x, ?_⟩
      intro a ha hb
      rcases List.mem_singleton.mp hb with rfl
      exact hx (List.elem_iff.mpr ha)

theorem firstAppearance_nodup (xs : List BKey) : (firstAppearance xs).Nodup :=
  firstAppearance_nodup_aux xs [] List.nodup_nil

theorem firstAppearance_snoc (xs : List BKey) (k : BKey) :
    firstAppearance (xs ++ [k]) =
      if (firstAppearance xs).contains k then firstAppearance xs
      else firstAppearance xs ++ [k] := by
  unfold firstAppearance
  rw [List.foldl_append]
  rfl

theorem bucketize_snoc (g : String) (rs : List Reading) (r : Reading) :
    bucketize (rs ++ [r]) g = bucketInsert g (bucketize rs g) r := by
  unfold bucketize
  rw [List.foldl_append]
  rfl

theorem any_fst_eq (B : List (BKey × List Reading)) (key : BKey) :
    B.any (fun kb => kb.1 == key) = true ↔ key ∈ B.map Prod.fst := by
  rw [List.any_eq_true, List.mem_map]
  constructor
  · rintro ⟨kb, hkb, he⟩; exact ⟨kb, hkb, beq_iff_eq.mp he⟩
  · rintro ⟨kb, hkb, he⟩; exact ⟨kb, hkb, beq_iff_eq.mpr he⟩

theorem bucketize_spec (g : String) (readings : List Reading) :
    (bucketize readings g).map Prod.fst =
        firstAppearance (readings.map (fun r => getBucketKey r.timestamp g)) ∧
      ∀ kb ∈ bucketize readings g,
        kb.2 = readings.filter (fun r => getBucketKey r.timestamp g == kb.1) := by
  induction readings using List.reverseRecOn with
  | nil => exact ⟨rfl, fun kb h => absurd h (List.not_mem_nil kb)⟩
  | append_singleton rs r ih =>
    obtain ⟨ihkeys, ihmem⟩ := ih
    rw [bucketize_snoc, List.map_append]
    simp only [List.map_cons, List.map_nil]
    rw [firstAppearance_snoc, ← ihkeys]
    unfold bucketInsert
    dsimp only
    by_cases hmem : getBucketKey r.timestamp g ∈ (bucketize rs g).map Prod.fst
    · rw [if_pos ((any_fst_eq _ _).mpr hmem), if_pos (List.elem_iff.mpr hmem)]
      constructor
      · rw [List.map_map]
        apply List.map_congr_left
        intro kb hkb
        show (if kb.1 = getBucketKey r.timestamp g then (kb.1, kb.2 ++ [r]) else kb).1 = kb.1
        split <;> rfl
      · intro kb hkb
        obtain ⟨kb0, hkb0, heq⟩ := List.mem_map.mp hkb
        subst heq
        by_cases h : kb0.1 = getBucketKey r.timestamp g
        · rw [if_pos h]
          show kb0.2 ++ [r] = List.filter _ (rs ++ [r])
          rw [List.filter_append, ← ihmem kb0 hkb0]
          have hr : (getBucketKey r.timestamp g == kb0.1) = true := beq_iff_eq.mpr h.symm
          simp [List.filter, hr]
        · rw [if_neg h]
          show kb0.2 = List.filter _ (rs ++ [r])
          rw [List.filter_append, ← ihmem kb0 hkb0]
          have hr : (getBucketKey r.timestamp g == kb0.1) = false := by
            rw [beq_eq_false_iff_ne]
            exact fun he => h he.symm
          simp [List.filter, hr]
    · rw [if_neg (fun h => hmem ((any_fst_eq _ _).mp h)),
        if_neg (fun h => hmem (List.elem_iff.mp h))]
      constructor
      · rw [List.map_append, ihkeys, ← ihkeys]
        rfl
      · intro kb hkb
        rcases List.mem_append.mp hkb with h | h
        · have hne : (getBucketKey r.timestamp g == kb.1) = false := by
            rw [beq_eq_false_iff_ne]
            intro he
            exact hmem (he ▸ List.mem_map.mpr ⟨kb, h, rfl⟩)
          rw [List.filter_append, ← ihmem kb h]
          simp [List.filter, hne]
        · rcases List.mem_singleton.mp h with rfl
          show [r] = List.filter _ (rs ++ [r])
          rw [List.filter_append]
          have h1 : rs.filter (fun r2 => getBucketKey r2.timestamp g == getBucketKey r.timestamp g) = [] := by
            rw [List.filter_eq_nil_iff]
            intro a ha hk
            apply hmem
            rw [ihkeys, mem_firstAppearance]
            exact beq_iff_eq.mp hk ▸ List.mem_map.mpr ⟨a, ha, rfl⟩
          rw [h1]
          simp [List.filter]

theorem bind_filter_perm (keyOf : Reading → BKey) :
    ∀ (K : List BKey) (rs : List Reading), K.Nodup →
      (∀ r ∈ rs, keyOf r ∈ K) →
      (K.flatMap (fun k => rs.filter (fun r => keyOf r == k))).Perm rs := by
  intro K
  induction K with
  | nil =>
    intro rs _ h
    have hrs : rs = [] := by
      cases rs with
      | nil => rfl
      | cons a t => exact absurd (h a (List.mem_cons_self a t)) (List.not_mem_nil _)
    simp [hrs]
  | cons k K ih =>
    intro rs hnodup hcov
    rw [List.flatMap_cons]
    have hsub : K.flatMap (fun k2 => rs.filter (fun r => keyOf r == k2)) =
        K.flatMap (fun k2 =>
          (rs.filter (fun r => !(keyOf r == k))).filter (fun r => keyOf r == k2)) := by
      unfold List.flatMap
      apply congrArg
      apply List.map_congr_left
      intro k2 hk2
      rw [List.filter_filter]
      apply List.filter_congr
      intro a _
      by_cases h : keyOf a = k2
      · have hk2ne : k2 ≠ k := fun he => (List.nodup_cons.mp hnodup).1 (he ▸ hk2)
        have h1 : (keyOf a == k2) = true := beq_iff_eq.mpr h
        have h2 : (keyOf a == k) = false := by
          rw [beq_eq_false_iff_ne]
          exact fun he => hk2ne (h.symm.trans he)
        rw [h1, h2]
        rfl
      · have h1 : (keyOf a == k2) = false := by
          rw [beq_eq_false_iff_ne]; exact h
        rw [h1]
        simp
    rw [hsub]
    have hcov2 : ∀ r ∈ rs.filter (fun r => !(keyOf r == k)), keyOf r ∈ K := by
      intro r hr
      have hrs : r ∈ rs := List.mem_of_mem_filter hr
      have hne : (keyOf r == k) = false := by
        have := List.of_mem_filter hr
        simpa using this
      rcases List.mem_cons.mp (hcov r hrs) with he | he
      · exact absurd (beq_iff_eq.mpr he) (by rw [hne]; exact Bool.false_ne_true)
      · exact he
    have hperm2 := ih (rs.filter (fun r => !(keyOf r == k))) (List.nodup_cons.mp hnodup).2 hcov2
    exact List.Perm.trans (List.Perm.append_left _ hperm2) (List.filter_append_perm _ rs)

/-- C3: bucketize is a partition of its input: the bucket keys are exactly
the keys of the readings, without duplicates and in order of first
appearance; each bucket holds exactly the readings carrying its key, in
input order; and the concatenation of all buckets is a permutation of the
input, so every reading lands in exactly one bucket. -/
theorem claim_C3_bucketize_partition :
    ∀ (readings : List Reading) (g : String),
      (bucketize readings g).map Prod.fst =
          firstAppearance (readings.map (fun r => getBucketKey r.timestamp g)) ∧
        (∀ kb ∈ bucketize readings g,
          kb.2 = readings.filter (fun r => getBucketKey r.timestamp g == kb.1)) ∧
        ((bucketize readings g).map Prod.fst).Nodup ∧
        ((bucketize readings g).map Prod.snd).flatten.Perm readings := by
  intro readings g
  obtain ⟨hkeys, hmem⟩ := bucketize_spec g readings
  refine ⟨hkeys, hmem, by rw [hkeys]; exact firstAppearance_nodup _, ?_⟩
  have hsnd : (bucketize readings g).map Prod.snd =
      ((bucketize readings g).map Prod.fst).map
        (fun k => readings.filter (fun r => getBucketKey r.timestamp g == k)) := by
    rw [List.map_map]
    apply List.map_congr_left
    intro kb hkb
    exact hmem kb hkb
  rw [hsnd, ← List.flatMap_def, hkeys]
  exact bind_filter_perm _ _ _ (firstAppearance_nodup _)
    (fun r hr => mem_firstAppearance.mpr (List.mem_map.mpr ⟨r, hr, rfl⟩))

/-! ### Lemmas for the map/chart synchronization claim -/

theorem foldl_add_rat (l : List ℚ) : l.foldl (fun a b => a + b) 0 = l.sum :=
  (List.sum_eq_foldl).symm

theorem foldl_add_value (l : List SeriesPoint) :
    l.foldl (fun sum p => sum + p.value) (0 : ℚ) = (l.map (fun p => p.value)).sum := by
  rw [List.sum_eq_foldl, List.foldl_map]

/-- The mean of the chronologically sorted point values equals the mean of
the per-bucket statistics in Map iteration order: sorting permutes the
points and the arithmetic mean is permutation-invariant. -/
theorem mean_of_sorted_points (B : List (BKey × List Reading))
    (valFn : BKey × List Reading → ℚ) :
    (if (List.insertionSort pointLe
          (B.map (fun kb => (⟨kb.1, valFn kb⟩ : SeriesPoint)))).length > 0 then
        (List.insertionSort pointLe
            (B.map (fun kb => (⟨kb.1, valFn kb⟩ : SeriesPoint)))).foldl
            (fun sum p => sum + p.value) (0 : ℚ) /
          ((List.insertionSort pointLe
            (B.map (fun kb => (⟨kb.1, valFn kb⟩ : SeriesPoint)))).length : ℚ)
      else 0) =
      if (B.map valFn).length > 0 then
        (B.map valFn).foldl (fun a b => a + b) (0 : ℚ) / ((B.map valFn).length : ℚ)
      else 0 := by
  have hperm := List.perm_insertionSort pointLe
    (B.map (fun kb => (⟨kb.1, valFn kb⟩ : SeriesPoint)))
  have hlen : (List.insertionSort pointLe
      (B.map (fun kb => (⟨kb.1, valFn kb⟩ : SeriesPoint)))).length = B.length :=
    hperm.length_eq.trans (List.length_map _ _)
  have hlen2 : (B.map valFn).length = B.length := List.length_map _ _
  have hnum : (List.insertionSort pointLe
      (B.map (fun kb => (⟨kb.1, valFn kb⟩ : SeriesPoint)))).foldl
      (fun sum p => sum + p.value) (0 : ℚ) =
      (B.map valFn).foldl (fun a b => a + b) (0 : ℚ) := by
    rw [foldl_add_value, foldl_add_rat, (hperm.map (fun p => p.value)).sum_eq, List.map_map]
    rfl
  by_cases hB : 0 < B.length
  · rw [if_pos (show _ > 0 by omega), if_pos (show _ > 0 by omega), hnum, hlen, hlen2]
  · rw [if_neg (show ¬ _ > 0 by omega), if_neg (show ¬ _ > 0 by omega)]

/-- Per-entity agreement of the AOI map value with the chart series
reference value, over identically filtered readings. -/
theorem mapChart_aoi_eq (st : AppState) (isTransactions : Bool) (fil : List Reading)
    (regionId : String) :
    neighborhoodValue st isTransactions fil regionId =
      (processAOISingle st isTransactions fil regionId).referenceValue := by
  unfold neighborhoodValue processAOISingle
  dsimp only
  by_cases hrs : (fil.filter (fun r => r.regionId == regionId)).length = 0
  · rw [if_pos hrs, List.length_eq_zero.mp hrs]
    rfl
  · rw [if_neg hrs]
    exact (mean_of_sorted_points (bucketize (fil.filter (fun r => r.regionId == regionId))
      st.aggregation) (fun kb => calculate
        (if isTransactions then kb.2.map (fun r => r.transactions)
          else kb.2.map (fun r => r.occupied / r.capacity * 100)) st.statistic)).symm

theorem filter_comm (p q : Reading → Bool) (l : List Reading) :
    (l.filter p).filter q = (l.filter q).filter p := by
  rw [List.filter_filter, List.filter_filter]
  exact List.filter_congr (fun a _ => Bool.and_comm _ _)

theorem filterByDayOfWeek_filter_comm (l : List Reading) (days : List Int)
    (q : Reading → Bool) :
    filterByDayOfWeek (l.filter q) days = (filterByDayOfWeek l days).filter q := by
  unfold filterByDayOfWeek
  split
  · rfl
  · exact filter_comm q _ l

theorem filterByHourRange_filter_comm (l : List Reading) (ranges : List (Int × Int))
    (q : Reading → Bool) :
    filterByHourRange (l.filter q) ranges = (filterByHourRange l ranges).filter q := by
  unfold filterByHourRange
  split
  · rfl
  · exact filter_comm q _ l

/-- Filtering to one blockface first and then applying the range/pattern
filters (the chart order) gives the same readings as applying the
range/pattern filters to the whole set and then restricting to the
blockface (the map order). -/
theorem blockface_filter_comm (st : AppState) (readings : List Reading) (p : Reading → Bool) :
    (if st.timePatternType ≠ "all" then
        filterByHourRange
          (if st.datePatternType ≠ "all" then
            filterByDayOfWeek
              ((readings.filter p).filter (fun r => isInRange r.timestamp st.timeRange))
              st.datePatternDays
          else (readings.filter p).filter (fun r => isInRange r.timestamp st.timeRange))
          st.timePatternRanges
      else
        if st.datePatternType ≠ "all" then
          filterByDayOfWeek
            ((readings.filter p).filter (fun r => isInRange r.timestamp st.timeRange))
            st.datePatternDays
        else (readings.filter p).filter (fun r => isInRange r.timestamp st.timeRange)) =
      (mapBlockfaceFilter st readings).filter p := by
  unfold mapBlockfaceFilter
  dsimp only
  rw [filter_comm p (fun r => isInRange r.timestamp st.timeRange) readings]
  by_cases hd : st.datePatternType ≠ "all" <;> by_cases ht : st.timePatternType ≠ "all"
  · rw [if_pos hd, if_pos hd, if_pos ht, if_pos ht,
      filterByDayOfWeek_filter_comm, filterByHourRange_filter_comm]
  · rw [if_pos hd, if_pos hd, if_neg ht, if_neg ht, filterByDayOfWeek_filter_comm]
  · rw [if_neg hd, if_neg hd, if_pos ht, if_pos ht, filterByHourRange_filter_comm]
  · rw [if_neg hd, if_neg hd, if_neg ht, if_neg ht]

/-- Per-entity agreement of the blockface map value with the chart series
reference value, whenever the chart produces a series (some reading
survives the filters). -/
theorem mapChart_blockface_eq (st : AppState) (isTransactions : Bool)
    (readings : List Reading) (bf : Blockface)
    (hne : (mapBlockfaceFilter st readings).filter (fun r => r.blockfaceId == bf.id) ≠ []) :
    ∃ s, processBlockfaceSingle st isTransactions readings bf = some s ∧
      blockfaceMapValue st isTransactions (mapBlockfaceFilter st readings) bf =
        s.referenceValue := by
  unfold processBlockfaceSingle
  dsimp only
  rw [blockface_filter_comm st readings (fun r => r.blockfaceId == bf.id)]
  rw [if_neg (show ¬ ((mapBlockfaceFilter st readings).filter
      (fun r => r.blockfaceId == bf.id)).length = 0 by
    simpa [List.length_eq_zero] using hne)]
  refine ⟨_, rfl, ?_⟩
  unfold blockfaceMapValue
  dsimp only
  rw [if_neg (show ¬ ((mapBlockfaceFilter st readings).filter
      (fun r => r.blockfaceId == bf.id)).length = 0 by
    simpa [List.length_eq_zero] using hne)]
  exact (mean_of_sorted_points (bucketize ((mapBlockfaceFilter st readings).filter
    (fun r => r.blockfaceId == bf.id)) st.aggregation) (fun kb => calculate
      (if isTransactions then kb.2.map (fun r => r.transactions)
        else kb.2.map (fun r => if r.capacity > 0 then r.occupied / r.capacity * 100 else 0))
      st.statistic)).symm

/-- C1: for every entity that receives a map value and every configuration
snapshot, the map value — the arithmetic mean, over the buckets of
bucketize(filter(entity readings)), of calculate(bucketValues, statistic) —
is numerically equal to the referenceValue (the arithmetic mean of the
point values) of the chart series built for the same entity.  The map
colors the regions of data.regions (aoi dimension) and the featured
blockfaces (blockface dimension); the synthetic sf-aggregate entity and
the combined-view series are chart-only and never receive a map value.
The neighborhood map applies a filter chain textually identical to the
chart pipeline filter, so the aoi agreement is unconditional; a blockface
none of whose readings survive the filters produces no chart series (the
map then falls back to stored metadata), which the nonemptiness hypothesis
expresses. -/
theorem claim_C1_map_chart_sync :
    (∀ (st : AppState) (isTransactions : Bool) (readings : List Reading) (regionId : String),
        neighborhoodValue st isTransactions (mapAoiFilter st readings) regionId =
          (processAOISingle st isTransactions (pipelineFilter st readings)
            regionId).referenceValue) ∧
      ∀ (st : AppState) (isTransactions : Bool) (readings : List Reading) (bf : Blockface),
        (mapBlockfaceFilter st readings).filter (fun r => r.blockfaceId == bf.id) ≠ [] →
        ∃ s, processBlockfaceSingle st isTransactions readings bf = some s ∧
          blockfaceMapValue st isTransactions (mapBlockfaceFilter st readings) bf =
            s.referenceValue := by
  constructor
  · intro st isTx readings regionId
    have hfil : mapAoiFilter st readings = pipelineFilter st readings := rfl
    rw [hfil]
    exact mapChart_aoi_eq st isTx (pipelineFilter st readings) regionId
  · exact mapChart_blockface_eq

/-- Witness for C1 at a one-reading blockface under the default
configuration. -/
theorem claim_C1_witness :
    ∃ s, processBlockfaceSingle
        ⟨⟨⟨2024, 1, 1⟩, ⟨2024, 1, 3⟩⟩, "all", [0, 1, 2, 3, 4, 5, 6], "all", [(0, 23)],
          "daily", "average", "blockface"⟩ false
        [⟨19723 * 1440 + 600, "", "bf-1", 50, 100, 0⟩] ⟨"bf-1", "seg-1", "Main St", 0⟩ =
        some s ∧
      blockfaceMapValue
        ⟨⟨⟨2024, 1, 1⟩, ⟨2024, 1, 3⟩⟩, "all", [0, 1, 2, 3, 4, 5, 6], "all", [(0, 23)],
          "daily", "average", "blockface"⟩ false
        (mapBlockfaceFilter
          ⟨⟨⟨2024, 1, 1⟩, ⟨2024, 1, 3⟩⟩, "all", [0, 1, 2, 3, 4, 5, 6], "all", [(0, 23)],
            "daily", "average", "blockface"⟩
          [⟨19723 * 1440 + 600, "", "bf-1", 50, 100, 0⟩]) ⟨"bf-1", "seg-1", "Main St", 0⟩ =
        s.referenceValue :=
  claim_C1_map_chart_sync.2 _ _ _ _ (by decide)

/-! ### Lemmas for the bucket-range enumeration claim -/

theorem civilDate_ext (a b : CivilDate) (h1 : a.year = b.year) (h2 : a.month = b.month)
    (h3 : a.day = b.day) : a = b := by
  cases a; cases b; simp_all

theorem civilOf_inj {t1 t2 : Int} (h : civilOf t1 = civilOf t2) : t1 / 1440 = t2 / 1440 :=
  civilFromDayNumber_injective h

theorem civilOf_congr {t1 t2 : Int} (h : t1 / 1440 = t2 / 1440) : civilOf t1 = civilOf t2 := by
  unfold civilOf
  rw [h]

theorem getBucketKey_daily_eq_iff (t1 t2 : Int) :
    getBucketKey t1 "daily" = getBucketKey t2 "daily" ↔ t1 / 1440 = t2 / 1440 := by
  show dailyKey t1 = dailyKey t2 ↔ _
  unfold dailyKey
  rw [BKey.kdate.injEq]
  constructor
  · rintro ⟨h1, h2, h3⟩
    exact civilOf_inj (civilDate_ext _ _ h1 h2 h3)
  · intro h
    have hc := civilOf_congr h
    exact ⟨by rw [hc], by rw [hc], by rw [hc]⟩

theorem getBucketKey_hourly_eq_iff (t1 t2 : Int) :
    getBucketKey t1 "hourly" = getBucketKey t2 "hourly" ↔ t1 / 60 = t2 / 60 := by
  show BKey.khour _ _ _ _ = BKey.khour _ _ _ _ ↔ _
  rw [BKey.khour.injEq]
  constructor
  · rintro ⟨h1, h2, h3, h4⟩
    have hz := civilOf_inj (civilDate_ext _ _ h1 h2 h3)
    unfold jsGetHours at h4
    omega
  · intro h
    have hz : t1 / 1440 = t2 / 1440 := by omega
    have hc := civilOf_congr hz
    have hh : jsGetHours t1 = jsGetHours t2 := by unfold jsGetHours; omega
    exact ⟨by rw [hc], by rw [hc], by rw [hc], hh⟩

theorem getBucketKey_15min_eq_iff (t1 t2 : Int) :
    getBucketKey t1 "15min" = getBucketKey t2 "15min" ↔ t1 / 15 = t2 / 15 := by
  show BKey.kmin _ _ _ _ _ = BKey.kmin _ _ _ _ _ ↔ _
  rw [BKey.kmin.injEq]
  constructor
  · rintro ⟨h1, h2, h3, h4, h5⟩
    have hz := civilOf_inj (civilDate_ext _ _ h1 h2 h3)
    unfold jsGetHours at h4
    unfold jsGetMinutes at h5
    omega
  · intro h
    have hz : t1 / 1440 = t2 / 1440 := by omega
    have hc := civilOf_congr hz
    have hh : jsGetHours t1 = jsGetHours t2 := by unfold jsGetHours; omega
    have hm : jsGetMinutes t1 / 15 * 15 = jsGetMinutes t2 / 15 * 15 := by
      unfold jsGetMinutes; omega
    exact ⟨by rw [hc], by rw [hc], by rw [hc], hh, hm⟩

theorem keyTime_daily (t : Int) : keyTime (getBucketKey t "daily") = t / 1440 * 1440 := by
  show keyTime (dailyKey t) = _
  unfold dailyKey
  show daysFromCivil ⟨(civilOf t).year, (civilOf t).month, (civilOf t).day⟩ * 1440 = _
  rw [civilOf_eta, daysFromCivil_civilOf]

theorem keyTime_hourly (t : Int) : keyTime (getBucketKey t "hourly") = t / 60 * 60 := by
  show keyTime (BKey.khour (civilOf t).year (civilOf t).month (civilOf t).day (jsGetHours t)) = _
  show daysFromCivil ⟨(civilOf t).year, (civilOf t).month, (civilOf t).day⟩ * 1440 +
    jsGetHours t * 60 = _
  rw [civilOf_eta, daysFromCivil_civilOf]
  unfold jsGetHours
  omega

theorem keyTime_15min (t : Int) : keyTime (getBucketKey t "15min") = t / 15 * 15 := by
  show keyTime (BKey.kmin (civilOf t).year (civilOf t).month (civilOf t).day (jsGetHours t)
    (jsGetMinutes t / 15 * 15)) = _
  show daysFromCivil ⟨(civilOf t).year, (civilOf t).month, (civilOf t).day⟩ * 1440 +
    jsGetHours t * 60 + jsGetMinutes t / 15 * 15 = _
  rw [civilOf_eta, daysFromCivil_civilOf]
  unfold jsGetHours jsGetMinutes
  omega

theorem genLoop_prefix (g : String) (endMin : Int) :
    ∀ (fuel : Nat) (current : Int) (keys : List BKey),
      ∃ rest, genLoop g endMin fuel current keys = keys ++ rest := by
  intro fuel
  induction fuel with
  | zero => intro current keys; exact ⟨[], (List.append_nil keys).symm⟩
  | succ n ih =>
    intro current keys
    simp only [genLoop]
    by_cases h : current ≤ endMin
    · rw [if_pos h]
      by_cases hc : keys.contains (getBucketKey current g)
      · rw [if_pos hc]
        exact ih (stepInstant g current) keys
      · rw [if_neg hc]
        obtain ⟨rest, hr⟩ := ih (stepInstant g current) (keys ++ [getBucketKey current g])
        exact ⟨[getBucketKey current g] ++ rest, by rw [hr, List.append_assoc]⟩
    · rw [if_neg h]
      exact ⟨[], (List.append_nil keys).symm⟩

theorem genLoop_mem_of_mem (g : String) (endMin : Int) (fuel : Nat) (current : Int)
    (keys : List BKey) {k : BKey} (hk : k ∈ keys) :
    k ∈ genLoop g endMin fuel current keys := by
  obtain ⟨rest, hr⟩ := genLoop_prefix g endMin fuel current keys
  rw [hr]
  exact List.mem_append_left rest hk

theorem genLoop_nodup (g : String) (endMin : Int) :
    ∀ (fuel : Nat) (current : Int) (keys : List BKey),
      keys.Nodup → (genLoop g endMin fuel current keys).Nodup := by
  intro fuel
  induction fuel with
  | zero => intro current keys h; exact h
  | succ n ih =>
    intro current keys h
    simp only [genLoop]
    by_cases hcond : current ≤ endMin
    · rw [if_pos hcond]
      by_cases hc : keys.contains (getBucketKey current g)
      · rw [if_pos hc]
        exact ih _ _ h
      · rw [if_neg hc]
        refine ih _ _ ?_
        rw [List.nodup_append]
        refine ⟨h, List.nodup_singleton _, ?_⟩
        intro a ha hb
        rcases List.mem_singleton.mp hb with rfl
        exact hc (List.elem_iff.mpr ha)
    · rw [if_neg hcond]
      exact h

theorem genLoop_sound (g : String) (endMin Δ : Int) (hΔ : 0 < Δ)
    (hstep : ∀ t : Int, stepInstant g t = t + Δ) :
    ∀ (fuel : Nat) (current : Int) (keys : List BKey),
      ∀ k ∈ genLoop g endMin fuel current keys,
        k ∈ keys ∨ ∃ s, current ≤ s ∧ s ≤ endMin ∧ k = getBucketKey s g := by
  intro fuel
  induction fuel with
  | zero => intro current keys k hk; exact Or.inl hk
  | succ n ih =>
    intro current keys k hk
    simp only [genLoop] at hk
    by_cases hcond : current ≤ endMin
    · rw [if_pos hcond] at hk
      by_cases hc : keys.contains (getBucketKey current g)
      · rw [if_pos hc] at hk
        rcases ih _ _ k hk with h | ⟨s, hs1, hs2, hs3⟩
        · exact Or.inl h
        · refine Or.inr ⟨s, ?_, hs2, hs3⟩
          rw [hstep] at hs1
          omega
      · rw [if_neg hc] at hk
        rcases ih _ _ k hk with h | ⟨s, hs1, hs2, hs3⟩
        · rcases List.mem_append.mp h with h | h
          · exact Or.inl h
          · rcases List.mem_singleton.mp h with rfl
            exact Or.inr ⟨current, le_refl _, hcond, rfl⟩
        · refine Or.inr ⟨s, ?_, hs2, hs3⟩
          rw [hstep] at hs1
          omega
    · rw [if_neg hcond] at hk
      exact Or.inl hk

theorem genLoop_complete (g : String) (endMin Δ : Int) (hΔ : 0 < Δ)
    (hstep : ∀ t : Int, stepInstant g t = t + Δ) :
    ∀ (fuel : Nat) (current : Int) (keys : List BKey) (s : Int),
      current ≤ s → s ≤ endMin → Δ ∣ s - current → endMin - current < fuel * Δ →
      getBucketKey s g ∈ genLoop g endMin fuel current keys := by
  intro fuel
  induction fuel with
  | zero =>
    intro current keys s h1 h2 _ h4
    exfalso
    rw [Nat.cast_zero, zero_mul] at h4
    omega
  | succ n ih =>
    intro current keys s h1 h2 hdvd h4
    simp only [genLoop]
    rw [if_pos (le_trans h1 h2)]
    rcases eq_or_lt_of_le h1 with rfl | hlt
    · by_cases hc : keys.contains (getBucketKey current g)
      · rw [if_pos hc]
        exact genLoop_mem_of_mem g endMin n _ _ (List.elem_iff.mp hc)
      · rw [if_neg hc]
        exact genLoop_mem_of_mem g endMin n _ _
          (List.mem_append_right keys (List.mem_singleton.mpr rfl))
    · have hge : current + Δ ≤ s := by
        rcases hdvd with ⟨c, hcd⟩
        have hcpos : 0 < c := by nlinarith
        nlinarith
      have hcast : ((n + 1 : ℕ) : ℤ) * Δ = (n : ℤ) * Δ + Δ := by push_cast; ring
      have hrec := ih (stepInstant g current)
        (if keys.contains (getBucketKey current g) then keys
          else keys ++ [getBucketKey current g]) s
        (by rw [hstep]; exact hge) h2
        (by
          rw [hstep]
          rcases hdvd with ⟨c, hcd⟩
          exact ⟨c - 1, by rw [mul_sub, mul_one, ← hcd]; ring⟩)
        (by rw [hstep]; linarith)
      by_cases hc : keys.contains (getBucketKey current g)
      · rw [if_pos hc]
        rw [if_pos hc] at hrec
        exact hrec
      · rw [if_neg hc]
        rw [if_neg hc] at hrec
        exact hrec

theorem genLoop_pairwise (g : String) (endMin Δ : Int) (hΔ : 0 < Δ)
    (hstep : ∀ t : Int, stepInstant g t = t + Δ)
    (hkeyiff : ∀ t1 t2 : Int, getBucketKey t1 g = getBucketKey t2 g ↔ t1 / Δ = t2 / Δ)
    (hktime : ∀ t : Int, keyTime (getBucketKey t g) = t / Δ * Δ) :
    ∀ (fuel : Nat) (current : Int) (keys : List BKey),
      List.Pairwise (fun a b => keyTime a < keyTime b) keys →
      (∀ k ∈ keys, ∃ s, s ≤ current ∧ k = getBucketKey s g) →
      List.Pairwise (fun a b => keyTime a < keyTime b)
        (genLoop g endMin fuel current keys) := by
  intro fuel
  induction fuel with
  | zero => intro current keys hpw _; exact hpw
  | succ n ih =>
    intro current keys hpw hwit
    simp only [genLoop]
    by_cases hcond : current ≤ endMin
    · rw [if_pos hcond]
      by_cases hc : keys.contains (getBucketKey current g)
      · rw [if_pos hc]
        refine ih _ _ hpw ?_
        intro k hk
        obtain ⟨s, hs1, hs2⟩ := hwit k hk
        exact ⟨s, by rw [hstep]; omega, hs2⟩
      · rw [if_neg hc]
        refine ih _ _ ?_ ?_
        · rw [List.pairwise_append]
          refine ⟨hpw, List.pairwise_singleton _ _, ?_⟩
          intro a ha b hb
          rcases List.mem_singleton.mp hb with rfl
          obtain ⟨s, hs1, hs2⟩ := hwit a ha
          rw [hs2, hktime, hktime]
          have hsle : s / Δ ≤ current / Δ := Int.ediv_le_ediv hΔ hs1
          have hne : s / Δ ≠ current / Δ := by
            intro he
            apply hc
            apply List.elem_iff.mpr
            have ha2 : a = getBucketKey current g := by
              rw [hs2]
              exact (hkeyiff s current).mpr he
            rw [← ha2]
            exact ha
          exact mul_lt_mul_of_pos_right (by omega) hΔ
        · intro k hk
          rcases List.mem_append.mp hk with h | h
          · obtain ⟨s, hs1, hs2⟩ := hwit k h
            exact ⟨s, by rw [hstep]; omega, hs2⟩
          · rcases List.mem_singleton.mp h with rfl
            exact ⟨current, by rw [hstep]; omega, rfl⟩
    · rw [if_neg hcond]
      exact hpw

theorem ediv_mul_le_self (a : Int) {b : Int} (hb : 0 < b) : a / b * b ≤ a := by
  have h1 := Int.emod_nonneg a (ne_of_gt hb)
  have h2 := Int.ediv_add_emod a b
  have h3 : b * (a / b) = a / b * b := mul_comm _ _
  linarith

/-- C2 counterexample: for the range 2024-01-06 (a Saturday) to 2024-01-08
(the following Monday) at weekly granularity, generateBucketRange returns
only ["2024-01-01"], although the in-range instant 2024-01-08T00:00 maps
to bucket key "2024-01-08" under getBucketKey: stepping 7 days at a time
from the range start skips the week the range's end date belongs to.  So
the enumeration does not return every bucket key that an in-range instant
maps to. -/
theorem claim_C2_counterexample :
    (generateBucketRange ⟨⟨2024, 1, 6⟩, ⟨2024, 1, 8⟩⟩ "weekly").map renderKey =
        ["2024-01-01"] ∧
      isInRange (19730 * 1440) ⟨⟨2024, 1, 6⟩, ⟨2024, 1, 8⟩⟩ = true ∧
      renderKey (getBucketKey (19730 * 1440) "weekly") = "2024-01-08" ∧
      getBucketKey (19730 * 1440) "weekly" ∉
        generateBucketRange ⟨⟨2024, 1, 6⟩, ⟨2024, 1, 8⟩⟩ "weekly" :=
  ⟨by decide, by decide, by decide, by decide⟩

/-- C2 amended: for the granularities whose stepping is aligned with the
range start (15min, hourly, daily), generateBucketRange returns,
deduplicated and in chronological order, exactly the bucket keys that the
instants between range.start and end-of-day(range.end) map to under
getBucketKey; for weekly and monthly the loop steps by 7 days / 1 calendar
month from range.start and can skip bucket keys of in-range instants; the
daily example equals ["2024-01-01","2024-01-02","2024-01-03"]. -/
theorem claim_C2_bucket_range_enumeration :
    (∀ (range : TimeRange) (g : String),
        g ∈ (["15min", "hourly", "daily"] : List String) →
        (∀ ts : Int, rangeStartMin range ≤ ts → ts ≤ rangeEndMin range →
          getBucketKey ts g ∈ generateBucketRange range g) ∧
        (∀ k ∈ generateBucketRange range g, ∃ ts, rangeStartMin range ≤ ts ∧
          ts ≤ rangeEndMin range ∧ k = getBucketKey ts g) ∧
        (generateBucketRange range g).Nodup ∧
        List.Pairwise (fun a b => keyTime a < keyTime b) (generateBucketRange range g)) ∧
      (generateBucketRange ⟨⟨2024, 1, 1⟩, ⟨2024, 1, 3⟩⟩ "daily").map renderKey =
        ["2024-01-01", "2024-01-02", "2024-01-03"] := by
  constructor
  · intro range g hg
    have hfacts : ∃ Δ : Int, 0 < Δ ∧ Δ ∣ 1440 ∧ (∀ t, stepInstant g t = t + Δ) ∧
        (∀ t1 t2, getBucketKey t1 g = getBucketKey t2 g ↔ t1 / Δ = t2 / Δ) ∧
        (∀ t, keyTime (getBucketKey t g) = t / Δ * Δ) := by
      simp only [List.mem_cons, List.not_mem_nil, or_false] at hg
      rcases hg with rfl | rfl | rfl
      · exact ⟨15, by norm_num, by norm_num, stepInstant_15min,
          getBucketKey_15min_eq_iff, keyTime_15min⟩
      · exact ⟨60, by norm_num, by norm_num, stepInstant_hourly,
          getBucketKey_hourly_eq_iff, keyTime_hourly⟩
      · exact ⟨1440, by norm_num, by norm_num, stepInstant_daily,
          getBucketKey_daily_eq_iff, keyTime_daily⟩
    obtain ⟨Δ, hΔ, hdvd1440, hstep, hkeyiff, hktime⟩ := hfacts
    unfold generateBucketRange
    refine ⟨?_, ?_, ?_, ?_⟩
    · intro ts hts1 hts2
      have hstart : Δ ∣ rangeStartMin range := by
        unfold rangeStartMin
        exact hdvd1440.mul_left _
      have hkey : getBucketKey ts g = getBucketKey (ts / Δ * Δ) g := by
        rw [hkeyiff]
        exact (Int.mul_ediv_cancel _ (ne_of_gt hΔ)).symm
      rw [hkey]
      apply genLoop_complete g _ Δ hΔ hstep
      · have h1 : rangeStartMin range / Δ ≤ ts / Δ := Int.ediv_le_ediv hΔ hts1
        have h2 : rangeStartMin range / Δ * Δ = rangeStartMin range :=
          Int.ediv_mul_cancel hstart
        have h3 : rangeStartMin range / Δ * Δ ≤ ts / Δ * Δ :=
          mul_le_mul_of_nonneg_right h1 (le_of_lt hΔ)
        linarith
      · exact le_trans (ediv_mul_le_self ts hΔ) hts2
      · exact dvd_sub ⟨ts / Δ, mul_comm _ _⟩ hstart
      · have hspan : 0 ≤ rangeEndMin range - rangeStartMin range := by linarith
        have hcast : (((rangeEndMin range - rangeStartMin range).toNat + 1 : ℕ) : ℤ) =
            rangeEndMin range - rangeStartMin range + 1 := by
          push_cast
          rw [Int.toNat_of_nonneg hspan]
        rw [hcast]
        nlinarith
    · intro k hk
      rcases genLoop_sound g _ Δ hΔ hstep _ _ _ k hk with h | ⟨s, h1, h2, h3⟩
      · exact absurd h (List.not_mem_nil k)
      · exact ⟨s, h1, h2, h3⟩
    · exact genLoop_nodup _ _ _ _ _ List.nodup_nil
    · exact genLoop_pairwise g _ Δ hΔ hstep hkeyiff hktime _ _ _ List.Pairwise.nil
        (fun k hk => absurd hk (List.not_mem_nil k))
  · decide

/-- Witness for C2 at the daily granularity: the key of the in-range
instant 2024-01-02T01:40 appears in the enumerated range. -/
theorem claim_C2_witness :
    getBucketKey (19724 * 1440 + 100) "daily" ∈
      generateBucketRange ⟨⟨2024, 1, 1⟩, ⟨2024, 1, 3⟩⟩ "daily" :=
  (claim_C2_bucket_range_enumeration.1 ⟨⟨2024, 1, 1⟩, ⟨2024, 1, 3⟩⟩ "daily"
    (by decide)).1 (19724 * 1440 + 100) (by decide) (by decide)

/-- Witness for C3: the single daily bucket of a one-reading list holds
exactly the readings carrying its key. -/
theorem claim_C3_witness :
    (BKey.kdate 2024 1 1, [(⟨19723 * 1440, "mission", "bf-1", 10, 20, 0⟩ : Reading)]).2 =
      [(⟨19723 * 1440, "mission", "bf-1", 10, 20, 0⟩ : Reading)].filter
        (fun r => getBucketKey r.timestamp "daily" ==
          (BKey.kdate 2024 1 1, [(⟨19723 * 1440, "mission", "bf-1", 10, 20, 0⟩ : Reading)]).1) :=
  (claim_C3_bucketize_partition [⟨19723 * 1440, "mission", "bf-1", 10, 20, 0⟩] "daily").2.1
    (BKey.kdate 2024 1 1, [⟨19723 * 1440, "mission", "bf-1", 10, 20, 0⟩]) (by decide)

/-- C7: percentile at 50, 0 and 100 agrees with median, min and max on
every array of numbers (returned without raising). -/
theorem claim_C7_percentile_agreements :
    ∀ v : List ℚ,
      percentile v 50 = Except.ok (median v) ∧
        percentile v 0 = Except.ok (min v) ∧
        percentile v 100 = Except.ok (max v) := by
  intro v
  rcases eq_or_ne v [] with rfl | hv
  · exact ⟨rfl, rfl, rfl⟩
  · have hne : ¬ (v.length = 0) := by simpa [List.length_eq_zero] using hv
    refine ⟨?_, ?_, ?_⟩ <;> unfold percentile
    · rw [if_neg hne, if_neg (by norm_num), percentileValue_fifty v hv]
    · rw [if_neg hne, if_neg (by norm_num), percentileValue_zero v hv]
    · rw [if_neg hne, if_neg (by norm_num), percentileValue_hundred v hv]

end TTV
